import Mathlib

/-!
Verification of the index-sort deduplication algorithms of
src/iterator_sorting.h (namespace iterator_sorting).

Modelling conventions (shallow embedding):

* The underlying container is a Lean List α; a C++ iterator into the
  container is modelled as a Nat position.  Dereferencing an iterator is
  reading the element at that position (val below).
* callers supply a comparator compB and an equality predicate eqB, both
  Bool-valued, exactly as the C++ Compare / EqualPred template parameters.
* std::stable_sort with a strict comparator comp is modelled by
  List.insertionSort with the comparison in le form (le a b := !comp b a),
  which is a stable sort: both are characterised by the same property —
  the output is sorted for comp and ties keep their original relative
  order — and that characterisation determines the output uniquely, so
  this is an exact model.
* std::sort over the (pairwise distinct) positions (the final sort of both
  variants) has a unique correct output, the ascending order; it is
  modelled by List.insertionSort with i ≤ j.
* std::sort with the value comparator (the first sort of the unstable
  variant) leaves the relative order of tied elements unspecified, so it
  is modelled nondeterministically: theorems about the unstable variant
  quantify over every list w that is a permutation of the positions and is
  sorted for the value comparator.
* std::unique is modelled by uniqueAdj / uniqueKeep: keep the first
  element, then keep each element that is not equal (per the predicate) to
  the most recently kept one — exactly the std::unique contract.
* std::iter_swap is modelled by swapL (two List.set writes).
-/

namespace IteratorSorting

open scoped List

/-- The value a position (iterator) dereferences to: element `i` of the
container `l` (positions in play are always in range; the default is never
reached there). -/
def val {α : Type} [Inhabited α] (l : List α) (i : Nat) : α :=
  l.getD i default

/-- The C++ lambda `[&comp](a, b){ return comp(*a, *b); }`: the caller's
comparator lifted to positions. -/
def ltIdx {α : Type} [Inhabited α] (compB : α → α → Bool) (l : List α) (i j : Nat) : Bool :=
  compB (val l i) (val l j)

/-- The lifted comparator in `le` form, as a stable sort consumes it:
`leIdx i j` holds when `*j` is not strictly less than `*i`. -/
def leIdx {α : Type} [Inhabited α] (compB : α → α → Bool) (l : List α) (i j : Nat) : Bool :=
  !compB (val l j) (val l i)

/-- The C++ lambda `[&equalPred](a, b){ return equalPred(*a, *b); }`: the
caller's equality predicate lifted to positions. -/
def eqIdx {α : Type} [Inhabited α] (eqB : α → α → Bool) (l : List α) (i j : Nat) : Bool :=
  eqB (val l i) (val l j)

/-- Scan step of `std::unique`: given the most recently kept element
`last`, drop elements equal to it and keep the next unequal one. -/
def uniqueKeep {β : Type} (e : β → β → Bool) (last : β) : List β → List β
  | [] => []
  | y :: ys => if e last y then uniqueKeep e last ys else y :: uniqueKeep e y ys

/-- `std::unique` followed by `erase` to the returned iterator: the
retained elements, in order.  The first element is always kept. -/
def uniqueAdj {β : Type} (e : β → β → Bool) : List β → List β
  | [] => []
  | x :: xs => x :: uniqueKeep e x xs

/-- The tail of both unique-iterator functions, after the initial sort of
the position vector: erase adjacent equal-value positions, then
`std::sort` the surviving (pairwise distinct) positions ascending. -/
def uniqueItersAfterSort {α : Type} [Inhabited α] (eqB : α → α → Bool) (l : List α)
    (w : List Nat) : List Nat :=
  List.insertionSort (fun i j => i ≤ j) (uniqueAdj (eqIdx eqB l) w)

/-- `iterator_sorting::stable_unique_iterators`: build the position vector
`[0, …, n)`, stable-sort it by pointed-to value, drop adjacent equal-value
positions, sort the survivors back into ascending position order. -/
def stable_unique_iterators {α : Type} [Inhabited α] (compB eqB : α → α → Bool)
    (l : List α) : List Nat :=
  uniqueItersAfterSort eqB l
    (List.insertionSort (fun i j => leIdx compB l i j = true) (List.range l.length))

/-- `std::iter_swap` on two positions of the container. -/
def swapL {α : Type} [Inhabited α] (xs : List α) (a b : Nat) : List α :=
  (xs.set a (val xs b)).set b (val xs a)

/-- One iteration of the compaction loop of
`iterator_sorting::stable_uniquify` (range form), at iterator position
`it` with state (container, j, uniqueRegionEnd): if `it` is the next
unconsumed unique position, swap it to the end of the unique region and
advance both cursors.  (The C++ loop also exits early once
`j = uniqIts.size()`; the remaining iterations are no-ops here, which is
the same final state.) -/
def uniquifyStep {α : Type} [Inhabited α] (uniq : List Nat)
    (st : List α × Nat × Nat) (it : Nat) : List α × Nat × Nat :=
  if uniq[st.2.1]? = some it then (swapL st.1 it st.2.2, st.2.1 + 1, st.2.2 + 1)
  else st

/-- `iterator_sorting::stable_uniquify` (range form): compute the stable
unique positions, then walk the container once, swapping each unique
position's element to the end of the growing unique region.  Returns the
final container contents together with `uniqueRegionEnd`. -/
def stable_uniquify {α : Type} [Inhabited α] (compB eqB : α → α → Bool)
    (l : List α) : List α × Nat :=
  let uniq := stable_unique_iterators compB eqB l
  let st := (List.range l.length).foldl (uniquifyStep uniq) (l, 0, 0)
  (st.1, st.2.2)

/-- Modelled from the spec: the container-level convenience wrapper (the
vector overload of `iterator_sorting::stable_uniquify`).  The source's
overload is ill-formed as written: its call
`stable_uniquify<std::vector<T>::iterator, IteratorAllocator>(...)`
binds `IteratorAllocator` positionally to the range form's second
template parameter, which is `Compare`, so any instantiation fails to
compile (`std::allocator` has no `operator()`); the allocator was
clearly meant for the fourth (`Allocator`) slot.  This definition models
the documented intent — the range form over the whole vector with the
default comparator `std::less` and default equality `std::equal_to`,
followed by `v.erase(cut, v.end())`. -/
def stable_uniquify_vec {α : Type} [Inhabited α] [LinearOrder α]
    (v : List α) : List α :=
  let r := stable_uniquify (fun a b => decide (a < b)) (fun a b => decide (a = b)) v
  r.1.take r.2

/-- Specification-side definition (for comparison with the code): the
positions of first occurrences — those `i` for which no earlier position
holds an equal value — listed in ascending position order. -/
def firstOccs {α : Type} [Inhabited α] (eqB : α → α → Bool) (l : List α) : List Nat :=
  (List.range l.length).filter
    (fun i => (List.range i).all (fun j => !eqIdx eqB l j i))

/-- State of the compaction loop after the iterations at positions
`0, …, k-1`: the container is still a permutation of the original of the
same length, the two cursors agree and lag behind `k`, the unique
positions strictly below `k` are exactly those already consumed, the
compacted region holds the values originally at the consumed unique
positions, and every container slot at or beyond `k` is untouched. -/
def LoopInv {α : Type} [Inhabited α] (l : List α) (uniq : List Nat) (k : Nat)
    (st : List α × Nat × Nat) : Prop :=
  st.1.length = l.length ∧
  st.1 ~ l ∧
  st.2.2 = st.2.1 ∧
  st.2.1 ≤ uniq.length ∧
  st.2.1 ≤ k ∧
  (∀ idx, idx < st.2.1 → uniq.getD idx 0 < k) ∧
  (∀ idx, st.2.1 ≤ idx → idx < uniq.length → k ≤ uniq.getD idx 0) ∧
  st.1.take st.2.1 = (uniq.take st.2.1).map (val l) ∧
  (∀ p, k ≤ p → p < l.length → val st.1 p = val l p)

/-- `stable_unique_iterators` with the container state threaded through
explicitly: the C++ function reads the container only through the two
comparator lambdas (const dereferences) and writes only its private
position vector, so each phase passes the container component along
unchanged.  Returned beside the result for the frame claim. -/
def stable_unique_iterators_run {α : Type} [Inhabited α] (compB eqB : α → α → Bool)
    (l : List α) : List Nat × List α :=
  let c0 := l
  let w := List.insertionSort (fun i j => leIdx compB c0 i j = true)
    (List.range c0.length)
  let c1 := c0
  let u := uniqueAdj (eqIdx eqB c1) w
  let c2 := c1
  (List.insertionSort (fun i j => i ≤ j) u, c2)

/-- The shared tail of both unique-iterator functions with the container
state threaded through: the erase-unique scan and the final position sort
read the container only through `eqIdx`. -/
def uniqueItersAfterSort_run {α : Type} [Inhabited α] (eqB : α → α → Bool)
    (l : List α) (w : List Nat) : List Nat × List α :=
  let u := uniqueAdj (eqIdx eqB l) w
  (List.insertionSort (fun i j => i ≤ j) u, l)

/-- The caller's comparator is a strict weak order: irreflexive,
transitive, and negatively transitive (the induced `not greater` relation
is transitive). -/
def IsSWO {α : Type} (compB : α → α → Bool) : Prop :=
  (∀ a, compB a a = false) ∧
  (∀ a b c, compB a b = true → compB b c = true → compB a c = true) ∧
  (∀ a b c, compB a b = false → compB b c = false → compB a c = false)

/-- The equality predicate agrees with the comparator: two values are
equal exactly when neither is strictly less than the other. -/
def ConsistentEq {α : Type} (compB eqB : α → α → Bool) : Prop :=
  ∀ a b, eqB a b = true ↔ (compB a b = false ∧ compB b a = false)

/-! ### Generic lemmas about the `std::unique` scan -/

theorem uniqueKeep_sublist {β : Type} (e : β → β → Bool) :
    ∀ (last : β) (xs : List β), uniqueKeep e last xs <+ xs := by
  intro last xs
  induction xs generalizing last with
  | nil => simp [uniqueKeep]
  | cons y ys ih =>
    simp only [uniqueKeep]
    split
    · exact (ih last).cons y
    · exact (ih y).cons₂ y

theorem uniqueAdj_sublist {β : Type} (e : β → β → Bool) :
    ∀ xs : List β, uniqueAdj e xs <+ xs
  | [] => .refl []
  | x :: xs => (uniqueKeep_sublist e x xs).cons₂ x

/-- Retention: an element with no equal element anywhere before it in the
scanned list survives the `std::unique` scan. -/
theorem mem_uniqueKeep {β : Type} {e : β → β → Bool} {i : β} :
    ∀ {xs : List β} {last : β}, i ∈ xs → e last i = false →
      (∀ j, [j, i] <+ xs → e j i = false) → i ∈ uniqueKeep e last xs := by
  intro xs
  induction xs with
  | nil => intro last h _ _; simp at h
  | cons y ys ih =>
    intro last hmem hlast hbefore
    simp only [uniqueKeep]
    rcases List.mem_cons.mp hmem with rfl | hmem'
    · rw [if_neg (by simp [hlast])]
      exact List.mem_cons_self _ _
    · have hyi : e y i = false :=
        hbefore y (List.Sublist.cons₂ y (List.singleton_sublist.mpr hmem'))
      have hbefore' : ∀ j, [j, i] <+ ys → e j i = false :=
        fun j hj => hbefore j (hj.cons y)
      split
      · exact ih hmem' hlast hbefore'
      · exact List.mem_cons_of_mem y (ih hmem' hyi hbefore')

/-- Removal inside a run: while scanning a sorted tail whose elements all
lie at or after `last` in the order, every element equal to `last` is
dropped. -/
theorem not_mem_uniqueKeep {β : Type} {e le : β → β → Bool}
    (Hstep : ∀ a b c, le a b = true → le b c = true → e a c = true → e b c = true) :
    ∀ {xs : List β} {last i : β}, xs.Pairwise (fun p q => le p q = true) →
      (∀ y ∈ xs, le last y = true) → i ∈ xs → e last i = true →
      i ∉ uniqueKeep e last xs := by
  intro xs
  induction xs with
  | nil => intro last i _ _ h _; simp at h
  | cons y ys ih =>
    intro last i hpw hle hmem heq
    have hpw' := (List.pairwise_cons.mp hpw).2
    have hyz := (List.pairwise_cons.mp hpw).1
    simp only [uniqueKeep]
    rcases Bool.eq_false_or_eq_true (e last y) with hly | hly
    · -- `y` is dropped, `last` stays
      rw [if_pos hly]
      have hlast' : ∀ z ∈ ys, le last z = true :=
        fun z hz => hle z (List.mem_cons_of_mem y hz)
      rcases List.mem_cons.mp hmem with rfl | hmem'
      · by_cases hin : i ∈ ys
        · exact ih hpw' hlast' hin heq
        · exact fun hc => hin ((uniqueKeep_sublist e last ys).subset hc)
      · exact ih hpw' hlast' hmem' heq
    · -- `y` is kept and becomes the new `last`
      rw [if_neg (by simp [hly])]
      rcases List.mem_cons.mp hmem with rfl | hmem'
      · rw [heq] at hly; simp at hly
      · have hyi : e y i = true :=
          Hstep last y i (hle y (List.mem_cons_self y ys)) (hyz i hmem') heq
        simp only [List.mem_cons, not_or]
        refine ⟨?_, ih hpw' hyz hmem' hyi⟩
        rintro rfl
        rw [heq] at hly
        simp at hly

/-- Removal: in a sorted nodup list, an element that has an equal element
strictly before it does not survive the `std::unique` scan. -/
theorem not_mem_uniqueKeep_of_pair {β : Type} {e le : β → β → Bool}
    (Hstep : ∀ a b c, le a b = true → le b c = true → e a c = true → e b c = true)
    (Htr : ∀ a b c, e a b = true → e b c = true → e a c = true) :
    ∀ {xs : List β} {last j i : β}, xs.Pairwise (fun p q => le p q = true) →
      (∀ y ∈ xs, le last y = true) → xs.Nodup → [j, i] <+ xs → e j i = true →
      i ∉ uniqueKeep e last xs := by
  intro xs
  induction xs with
  | nil => intro last j i _ _ _ h _; cases h
  | cons y ys ih =>
    intro last j i hpw hle hnd hsub heq
    have hpw' := (List.pairwise_cons.mp hpw).2
    have hyz := (List.pairwise_cons.mp hpw).1
    have hnd' := (List.nodup_cons.mp hnd).2
    have hyny := (List.nodup_cons.mp hnd).1
    simp only [uniqueKeep]
    cases hsub with
    | cons _ h' =>
      -- both `j` and `i` lie in the tail
      have hiys : i ∈ ys := h'.subset (by simp)
      have hlast' : ∀ z ∈ ys, le last z = true :=
        fun z hz => hle z (List.mem_cons_of_mem y hz)
      split
      · exact ih hpw' hlast' hnd' h' heq
      · simp only [List.mem_cons, not_or]
        exact ⟨fun hc => hyny (hc ▸ hiys), ih hpw' hyz hnd' h' heq⟩
    | cons₂ _ h' =>
      -- `j` is the head, `i` lies in the tail
      have hiys : i ∈ ys := List.singleton_sublist.mp h'
      have hlast' : ∀ z ∈ ys, le last z = true :=
        fun z hz => hle z (List.mem_cons_of_mem y hz)
      rcases Bool.eq_false_or_eq_true (e last y) with hlj | hlj
      · rw [if_pos hlj]
        exact not_mem_uniqueKeep Hstep hpw' hlast' hiys (Htr last y i hlj heq)
      · rw [if_neg (by simp [hlj])]
        simp only [List.mem_cons, not_or]
        exact ⟨fun hc => hyny (hc ▸ hiys),
          not_mem_uniqueKeep Hstep hpw' hyz hiys heq⟩

/-- Existence: every scanned element has an equal survivor, unless it is
equal to the current `last`. -/
theorem exists_mem_uniqueKeep {β : Type} {e : β → β → Bool}
    (Hrefl : ∀ a, e a a = true) :
    ∀ {xs : List β} {last i : β}, i ∈ xs →
      e last i = true ∨ ∃ p ∈ uniqueKeep e last xs, e p i = true := by
  intro xs
  induction xs with
  | nil => intro last i h; simp at h
  | cons y ys ih =>
    intro last i hmem
    simp only [uniqueKeep]
    rcases Bool.eq_false_or_eq_true (e last y) with hly | hly
    · rw [if_pos hly]
      rcases List.mem_cons.mp hmem with rfl | hmem'
      · exact Or.inl hly
      · exact ih hmem'
    · rw [if_neg (by simp [hly])]
      rcases List.mem_cons.mp hmem with rfl | hmem'
      · exact Or.inr ⟨i, List.mem_cons_self _ _, Hrefl i⟩
      · rcases @ih y i hmem' with h | ⟨p, hp, hpe⟩
        · exact Or.inr ⟨y, List.mem_cons_self _ _, h⟩
        · exact Or.inr ⟨p, List.mem_cons_of_mem y hp, hpe⟩

/-! ### Top-level `uniqueAdj` lemmas -/

theorem mem_uniqueAdj {β : Type} {e : β → β → Bool} {i : β} {xs : List β}
    (hmem : i ∈ xs) (hbefore : ∀ j, [j, i] <+ xs → e j i = false) :
    i ∈ uniqueAdj e xs := by
  cases xs with
  | nil => simp at hmem
  | cons x rest =>
    simp only [uniqueAdj]
    rcases List.mem_cons.mp hmem with rfl | hmem'
    · exact List.mem_cons_self _ _
    · have hxi : e x i = false :=
        hbefore x (List.Sublist.cons₂ x (List.singleton_sublist.mpr hmem'))
      exact List.mem_cons_of_mem x
        (mem_uniqueKeep hmem' hxi (fun j hj => hbefore j (hj.cons x)))

theorem not_mem_uniqueAdj {β : Type} {e le : β → β → Bool} {j i : β} {xs : List β}
    (Hstep : ∀ a b c, le a b = true → le b c = true → e a c = true → e b c = true)
    (Htr : ∀ a b c, e a b = true → e b c = true → e a c = true)
    (hpw : xs.Pairwise (fun p q => le p q = true)) (hnd : xs.Nodup)
    (hsub : [j, i] <+ xs) (heq : e j i = true) :
    i ∉ uniqueAdj e xs := by
  cases xs with
  | nil => cases hsub
  | cons x rest =>
    have hpw' := (List.pairwise_cons.mp hpw).2
    have hxz := (List.pairwise_cons.mp hpw).1
    have hnd' := (List.nodup_cons.mp hnd).2
    have hxnr := (List.nodup_cons.mp hnd).1
    simp only [uniqueAdj]
    cases hsub with
    | cons _ h' =>
      have hirest : i ∈ rest := h'.subset (by simp)
      simp only [List.mem_cons, not_or]
      exact ⟨fun hc => hxnr (hc ▸ hirest),
        not_mem_uniqueKeep_of_pair Hstep Htr hpw' hxz hnd' h' heq⟩
    | cons₂ _ h' =>
      have hirest : i ∈ rest := List.singleton_sublist.mp h'
      simp only [List.mem_cons, not_or]
      exact ⟨fun hc => hxnr (hc ▸ hirest),
        not_mem_uniqueKeep Hstep hpw' hxz hirest heq⟩

theorem exists_mem_uniqueAdj {β : Type} {e : β → β → Bool} {i : β} {xs : List β}
    (Hrefl : ∀ a, e a a = true) (hmem : i ∈ xs) :
    ∃ p ∈ uniqueAdj e xs, e p i = true := by
  cases xs with
  | nil => simp at hmem
  | cons x rest =>
    simp only [uniqueAdj]
    rcases List.mem_cons.mp hmem with rfl | hmem'
    · exact ⟨i, List.mem_cons_self _ _, Hrefl i⟩
    · rcases @exists_mem_uniqueKeep β e Hrefl rest x i hmem' with h | ⟨p, hp, hpe⟩
      · exact ⟨x, List.mem_cons_self _ _, h⟩
      · exact ⟨p, List.mem_cons_of_mem x hp, hpe⟩

/-! ### Pair-sublist helpers -/

theorem pair_sublist_antisymm {β : Type} {a b : β} :
    ∀ {xs : List β}, xs.Nodup → [a, b] <+ xs → [b, a] <+ xs → a = b := by
  intro xs
  induction xs with
  | nil => intro _ h; cases h
  | cons x rest ih =>
    intro hnd h1 h2
    have hnd' := (List.nodup_cons.mp hnd).2
    have hxnr := (List.nodup_cons.mp hnd).1
    cases h1 with
    | cons _ h1' =>
      cases h2 with
      | cons _ h2' => exact ih hnd' h1' h2'
      | cons₂ _ h2' =>
        -- b = x, yet [a,b] <+ rest puts b in rest
        exact absurd (h1'.subset (by simp)) hxnr
    | cons₂ _ h1' =>
      cases h2 with
      | cons _ h2' =>
        exact absurd (h2'.subset (by simp)) hxnr
      | cons₂ _ h2' => rfl

theorem pair_sublist_of_mem {β : Type} {a b : β} :
    ∀ {xs : List β}, a ∈ xs → b ∈ xs → a ≠ b → [a, b] <+ xs ∨ [b, a] <+ xs := by
  intro xs
  induction xs with
  | nil => intro h; simp at h
  | cons x rest ih =>
    intro ha hb hne
    rcases List.mem_cons.mp ha with rfl | ha'
    · have hb' : b ∈ rest := by
        rcases List.mem_cons.mp hb with rfl | h
        · exact absurd rfl hne
        · exact h
      exact Or.inl (List.Sublist.cons₂ a (List.singleton_sublist.mpr hb'))
    · rcases List.mem_cons.mp hb with rfl | hb'
      · exact Or.inr (List.Sublist.cons₂ b (List.singleton_sublist.mpr ha'))
      · rcases ih ha' hb' hne with h | h
        · exact Or.inl (h.cons x)
        · exact Or.inr (h.cons x)

theorem pair_sublist_range {j i : Nat} :
    ∀ {n : Nat}, j < i → i < n → [j, i] <+ List.range n := by
  intro n
  induction n with
  | zero => intro _ h; cases h
  | succ m ih =>
    intro hji hin
    rw [List.range_succ]
    rcases Nat.lt_succ_iff_lt_or_eq.mp hin with h | rfl
    · exact (ih hji h).trans (List.sublist_append_left _ _)
    · exact List.Sublist.append
        (List.singleton_sublist.mpr (List.mem_range.mpr hji)) (.refl [i])

/-! ### Consequences of the strict-weak-order and consistency hypotheses -/

theorem compB_asymm {α : Type} {compB : α → α → Bool} (hswo : IsSWO compB)
    {a b : α} (h : compB a b = true) : compB b a = false := by
  rcases Bool.eq_false_or_eq_true (compB b a) with h1 | h1
  · exact absurd (hswo.2.1 a b a h h1) (by simp [hswo.1 a])
  · exact h1

theorem leIdx_trans {α : Type} [Inhabited α] {compB : α → α → Bool} {l : List α}
    (hswo : IsSWO compB) :
    ∀ a b c : Nat, leIdx compB l a b → leIdx compB l b c → leIdx compB l a c := by
  intro a b c hab hbc
  simp only [leIdx, Bool.not_eq_true'] at hab hbc ⊢
  exact hswo.2.2 _ _ _ hbc hab

theorem leIdx_total {α : Type} [Inhabited α] {compB : α → α → Bool} {l : List α}
    (hswo : IsSWO compB) :
    ∀ a b : Nat, leIdx compB l a b || leIdx compB l b a := by
  intro a b
  simp only [leIdx, Bool.or_eq_true, Bool.not_eq_true']
  rcases Bool.eq_false_or_eq_true (compB (val l b) (val l a)) with h | h
  · exact Or.inr (compB_asymm hswo h)
  · exact Or.inl h

theorem eqIdx_refl {α : Type} [Inhabited α] {compB eqB : α → α → Bool} {l : List α}
    (hswo : IsSWO compB) (hcons : ConsistentEq compB eqB) (i : Nat) :
    eqIdx eqB l i i = true :=
  (hcons _ _).mpr ⟨hswo.1 _, hswo.1 _⟩

theorem eqIdx_symm {α : Type} [Inhabited α] {compB eqB : α → α → Bool} {l : List α}
    (hcons : ConsistentEq compB eqB) {i j : Nat} (h : eqIdx eqB l i j = true) :
    eqIdx eqB l j i = true := by
  have h' := (hcons _ _).mp h
  exact (hcons _ _).mpr ⟨h'.2, h'.1⟩

theorem eqIdx_trans {α : Type} [Inhabited α] {compB eqB : α → α → Bool} {l : List α}
    (hswo : IsSWO compB) (hcons : ConsistentEq compB eqB) :
    ∀ a b c : Nat, eqIdx eqB l a b = true → eqIdx eqB l b c = true →
      eqIdx eqB l a c = true := by
  intro a b c hab hbc
  have h1 := (hcons _ _).mp hab
  have h2 := (hcons _ _).mp hbc
  exact (hcons _ _).mpr ⟨hswo.2.2 _ _ _ h1.1 h2.1, hswo.2.2 _ _ _ h2.2 h1.2⟩

/-- The step hypothesis of the removal lemmas, for the lifted relations:
advancing `last` along the sorted order keeps it equal to the members of
the current equivalence class. -/
theorem eqIdx_step {α : Type} [Inhabited α] {compB eqB : α → α → Bool} {l : List α}
    (hswo : IsSWO compB) (hcons : ConsistentEq compB eqB) :
    ∀ a b c : Nat, leIdx compB l a b = true → leIdx compB l b c = true →
      eqIdx eqB l a c = true → eqIdx eqB l b c = true := by
  intro a b c hab hbc hac
  have h1 : compB (val l b) (val l a) = false := by
    simpa only [leIdx, Bool.not_eq_true'] using hab
  have h2 : compB (val l c) (val l b) = false := by
    simpa only [leIdx, Bool.not_eq_true'] using hbc
  have h3 := (hcons _ _).mp hac
  exact (hcons _ _).mpr ⟨hswo.2.2 _ _ _ h1 h3.1, h2⟩

theorem leIdx_of_eqIdx {α : Type} [Inhabited α] {compB eqB : α → α → Bool} {l : List α}
    (hcons : ConsistentEq compB eqB) {i j : Nat} (h : eqIdx eqB l i j = true) :
    leIdx compB l i j = true := by
  simp only [leIdx, Bool.not_eq_true']
  exact ((hcons _ _).mp h).2

/-! ### The stable-sorted position vector -/

theorem stableSorted_perm {α : Type} [Inhabited α] (compB : α → α → Bool) (l : List α) :
    List.insertionSort (fun i j => leIdx compB l i j = true) (List.range l.length)
      ~ List.range l.length :=
  List.perm_insertionSort _ _

theorem stableSorted_nodup {α : Type} [Inhabited α] (compB : α → α → Bool) (l : List α) :
    (List.insertionSort (fun i j => leIdx compB l i j = true) (List.range l.length)).Nodup :=
  ((stableSorted_perm compB l).nodup_iff).mpr (List.nodup_range _)

theorem stableSorted_pairwise {α : Type} [Inhabited α] {compB : α → α → Bool} {l : List α}
    (hswo : IsSWO compB) :
    (List.insertionSort (fun i j => leIdx compB l i j = true)
        (List.range l.length)).Pairwise
      (fun p q => leIdx compB l p q = true) := by
  haveI : IsTotal Nat (fun i j => leIdx compB l i j = true) := by
    refine ⟨fun a b => ?_⟩
    have h := leIdx_total (l := l) hswo a b
    exact Bool.or_eq_true_iff.mp h
  haveI : IsTrans Nat (fun i j => leIdx compB l i j = true) :=
    ⟨fun a b c hab hbc => leIdx_trans hswo a b c hab hbc⟩
  exact List.sorted_insertionSort _ _

/-- Stability of the first sort: an original-order pair of positions with
equal values stays in original order. -/
theorem pair_sublist_stableSorted {α : Type} [Inhabited α]
    {compB eqB : α → α → Bool} {l : List α}
    (hswo : IsSWO compB) (hcons : ConsistentEq compB eqB) {j i : Nat}
    (hji : j < i) (hin : i < l.length) (heq : eqIdx eqB l j i = true) :
    [j, i] <+ List.insertionSort (fun i j => leIdx compB l i j = true)
      (List.range l.length) :=
  List.pair_sublist_insertionSort (leIdx_of_eqIdx hcons heq) (pair_sublist_range hji hin)

/-! ### Membership characterization of the stable unique positions -/

theorem mem_stable_unique_iff {α : Type} [Inhabited α]
    {compB eqB : α → α → Bool} {l : List α}
    (hswo : IsSWO compB) (hcons : ConsistentEq compB eqB) {i : Nat} :
    i ∈ stable_unique_iterators compB eqB l ↔
      (i < l.length ∧ ∀ j, j < i → eqIdx eqB l j i = false) := by
  rw [stable_unique_iterators, uniqueItersAfterSort, List.mem_insertionSort]
  have hwnd := stableSorted_nodup compB l
  have hwpw := stableSorted_pairwise (l := l) hswo
  constructor
  · intro hmem
    have hiw := (uniqueAdj_sublist _ _).subset hmem
    have hin : i < l.length :=
      List.mem_range.mp ((stableSorted_perm compB l).subset hiw)
    refine ⟨hin, fun j hji => ?_⟩
    rcases Bool.eq_false_or_eq_true (eqIdx eqB l j i) with h | h
    · exact absurd hmem
        (not_mem_uniqueAdj (eqIdx_step hswo hcons) (eqIdx_trans hswo hcons)
          hwpw hwnd (pair_sublist_stableSorted hswo hcons hji hin h) h)
    · exact h
  · rintro ⟨hin, hfirst⟩
    have hiw : i ∈ List.insertionSort (fun i j => leIdx compB l i j = true)
        (List.range l.length) :=
      (stableSorted_perm compB l).mem_iff.mpr (List.mem_range.mpr hin)
    refine mem_uniqueAdj hiw (fun j hsub => ?_)
    rcases Bool.eq_false_or_eq_true (eqIdx eqB l j i) with h | h
    · exfalso
      have hjw := hsub.subset (List.mem_cons_self _ _)
      have hjn : j < l.length :=
        List.mem_range.mp ((stableSorted_perm compB l).subset hjw)
      have hne : j ≠ i := by
        have : List.Nodup [j, i] := hsub.nodup hwnd
        simpa [List.nodup_cons] using fun hc => (List.nodup_cons.mp this).1 (by simp [hc])
      rcases Nat.lt_or_ge j i with hji | hij
      · rw [hfirst j hji] at h; simp at h
      · have hij' : i < j := Nat.lt_of_le_of_ne hij (fun hc => hne hc.symm)
        have hsub2 := pair_sublist_stableSorted hswo hcons hij' hjn (eqIdx_symm hcons h)
        exact hne (pair_sublist_antisymm hwnd hsub hsub2)
    · exact h

/-! ### The specification-side list of first occurrences -/

theorem mem_firstOccs {α : Type} [Inhabited α] {eqB : α → α → Bool} {l : List α} {i : Nat} :
    i ∈ firstOccs eqB l ↔ (i < l.length ∧ ∀ j, j < i → eqIdx eqB l j i = false) := by
  simp [firstOccs, List.mem_filter, List.mem_range, List.all_eq_true, Bool.not_eq_true']

theorem firstOccs_sorted_lt {α : Type} [Inhabited α] (eqB : α → α → Bool) (l : List α) :
    (firstOccs eqB l).Pairwise (· < ·) :=
  (List.pairwise_lt_range _).filter _

theorem firstOccs_nodup {α : Type} [Inhabited α] (eqB : α → α → Bool) (l : List α) :
    (firstOccs eqB l).Nodup :=
  (firstOccs_sorted_lt eqB l).imp Nat.ne_of_lt

theorem firstOccs_sublist_range {α : Type} [Inhabited α] (eqB : α → α → Bool) (l : List α) :
    firstOccs eqB l <+ List.range l.length :=
  List.filter_sublist _

/-! ### The master theorem: the stable variant returns exactly the
ascending list of first-occurrence positions -/

theorem stable_unique_eq_firstOccs {α : Type} [Inhabited α]
    {compB eqB : α → α → Bool} {l : List α}
    (hswo : IsSWO compB) (hcons : ConsistentEq compB eqB) :
    stable_unique_iterators compB eqB l = firstOccs eqB l := by
  have hnd : (stable_unique_iterators compB eqB l).Nodup := by
    rw [stable_unique_iterators, uniqueItersAfterSort]
    exact ((List.perm_insertionSort _ _).nodup_iff).mpr
      ((uniqueAdj_sublist _ _).nodup (stableSorted_nodup compB l))
  have hsorted : (stable_unique_iterators compB eqB l).Sorted (· ≤ ·) := by
    rw [stable_unique_iterators, uniqueItersAfterSort]
    exact List.sorted_insertionSort _ _
  have hperm : stable_unique_iterators compB eqB l ~ firstOccs eqB l := by
    refine List.perm_of_nodup_nodup_toFinset_eq hnd (firstOccs_nodup eqB l) ?_
    ext a
    simp only [List.mem_toFinset]
    rw [mem_stable_unique_iff hswo hcons, mem_firstOccs]
  exact List.eq_of_perm_of_sorted hperm hsorted
    ((firstOccs_sorted_lt eqB l).imp Nat.le_of_lt)

/-! ### Lemmas about `std::iter_swap` on the container -/

theorem length_swapL {α : Type} [Inhabited α] (xs : List α) (a b : Nat) :
    (swapL xs a b).length = xs.length := by
  simp [swapL]

theorem val_swapL_of_ne {α : Type} [Inhabited α] (xs : List α) {a b p : Nat}
    (hpa : p ≠ a) (hpb : p ≠ b) : val (swapL xs a b) p = val xs p := by
  simp only [swapL, val, List.getD_eq_getElem?_getD]
  rw [List.getElem?_set_ne (Ne.symm hpb), List.getElem?_set_ne (Ne.symm hpa)]

theorem val_swapL_right {α : Type} [Inhabited α] (xs : List α) {a b : Nat}
    (hb : b < xs.length) : val (swapL xs a b) b = val xs a := by
  simp only [swapL, val, List.getD_eq_getElem?_getD]
  rw [List.getElem?_set_self (by simpa using hb)]
  rfl

theorem swapL_zero_succ {α : Type} [Inhabited α] (x : α) (t : List α) (b : Nat) :
    swapL (x :: t) 0 (b + 1) = val t b :: t.set b x := by
  simp [swapL, val]

theorem cons_set_perm {α : Type} [Inhabited α] (x : α) :
    ∀ (t : List α) (b : Nat), b < t.length → val t b :: t.set b x ~ x :: t := by
  intro t
  induction t with
  | nil => intro b hb; simp at hb
  | cons y t' ih =>
    intro b hb
    cases b with
    | zero =>
      simp only [List.getD_cons_zero, List.set_cons_zero, val]
      exact List.Perm.swap x y t'
    | succ b' =>
      have hb' : b' < t'.length := by simpa using hb
      simp only [List.getD_cons_succ, List.set_cons_succ, val]
      calc val t' b' :: y :: t'.set b' x
          ~ y :: val t' b' :: t'.set b' x := List.Perm.swap y (val t' b') _
        _ ~ y :: x :: t' := (ih b' hb').cons y
        _ ~ x :: y :: t' := List.Perm.swap x y t'

theorem swapL_perm {α : Type} [Inhabited α] :
    ∀ (xs : List α) (a b : Nat), a < xs.length → b < xs.length → swapL xs a b ~ xs := by
  intro xs
  induction xs with
  | nil => intro a b ha _; simp at ha
  | cons x t ih =>
    intro a b ha hb
    cases a with
    | zero =>
      cases b with
      | zero => simp [swapL, val]
      | succ b' =>
        rw [swapL_zero_succ]
        exact cons_set_perm x t b' (by simpa using hb)
    | succ a' =>
      cases b with
      | zero =>
        have hcomm : swapL (x :: t) (a' + 1) 0 = swapL (x :: t) 0 (a' + 1) := by
          simp only [swapL]
          rw [List.set_comm _ _ _ (by omega)]
        rw [hcomm, swapL_zero_succ]
        exact cons_set_perm x t a' (by simpa using ha)
      | succ b' =>
        have hstep : swapL (x :: t) (a' + 1) (b' + 1) = x :: swapL t a' b' := by
          simp [swapL, val]
        rw [hstep]
        exact (ih a' b' (by simpa using ha) (by simpa using hb)).cons x

theorem take_swapL_of_le {α : Type} [Inhabited α] (xs : List α) {a b j : Nat}
    (hja : j ≤ a) (hjb : j ≤ b) : (swapL xs a b).take j = xs.take j := by
  simp only [swapL]
  rw [List.set_take, List.set_take]
  rw [List.set_eq_of_length_le, List.set_eq_of_length_le]
  · exact le_trans (by simp) hja
  · calc ((xs.take j).set a (val xs b)).length = (xs.take j).length := by simp
      _ ≤ j := by simp
      _ ≤ b := hjb

/-! ### The compaction loop invariant -/

theorem loopInv_init {α : Type} [Inhabited α] (l : List α) (uniq : List Nat) :
    LoopInv l uniq 0 (l, 0, 0) := by
  refine ⟨rfl, List.Perm.refl l, rfl, Nat.zero_le _, Nat.le_refl 0,
    fun idx h => absurd h (Nat.not_lt_zero idx),
    fun idx _ _ => Nat.zero_le _, ?_, fun p _ _ => rfl⟩
  simp

/-- Strict monotonicity of the ascending unique-position list, in `getD`
form. -/
theorem sorted_getD_lt {uniq : List Nat} (hU1 : uniq.Pairwise (· < ·))
    {p q : Nat} (hp : p < uniq.length) (hq : q < uniq.length) (hpq : p < q) :
    uniq.getD p 0 < uniq.getD q 0 := by
  rw [List.getD_eq_getElem _ _ hp, List.getD_eq_getElem _ _ hq]
  have h := List.Sorted.rel_get_of_lt hU1 (a := ⟨p, hp⟩) (b := ⟨q, hq⟩) hpq
  simpa [List.get_eq_getElem] using h

theorem loopInv_step {α : Type} [Inhabited α] {l : List α} {uniq : List Nat}
    {k : Nat} {st : List α × Nat × Nat}
    (hU1 : uniq.Pairwise (· < ·)) (hU2 : ∀ m ∈ uniq, m < l.length)
    (hk : k < l.length) (hinv : LoopInv l uniq k st) :
    LoopInv l uniq (k + 1) (uniquifyStep uniq st k) := by
  obtain ⟨hlen, hperm, huj, hjle, hjk, hdone, htodo, hfront, hrest⟩ := hinv
  rw [uniquifyStep]
  by_cases hcond : uniq[st.2.1]? = some k
  · rw [if_pos hcond]
    obtain ⟨hj, huk⟩ := List.getElem?_eq_some_iff.mp hcond
    have hukD : uniq.getD st.2.1 0 = k := by
      rw [List.getD_eq_getElem _ _ hj]; exact huk
    have hkst : k < st.1.length := by rw [hlen]; exact hk
    have hust : st.2.2 < st.1.length := by
      rw [hlen, huj]; exact Nat.lt_of_le_of_lt hjk hk
    refine ⟨by simp [length_swapL, hlen], (swapL_perm st.1 k st.2.2 hkst hust).trans hperm,
      by simp [huj], Nat.succ_le_of_lt hj, Nat.succ_le_succ hjk, ?_, ?_, ?_, ?_⟩
    · -- consumed positions are < k+1
      intro idx hidx
      rcases Nat.lt_succ_iff_lt_or_eq.mp hidx with h | rfl
      · exact Nat.lt_succ_of_lt (hdone idx h)
      · rw [hukD]; exact Nat.lt_succ_self k
    · -- unconsumed positions are ≥ k+1
      intro idx hge hlt
      have : uniq.getD st.2.1 0 < uniq.getD idx 0 :=
        sorted_getD_lt hU1 hj hlt (Nat.lt_of_succ_le hge)
      rw [hukD] at this
      exact Nat.succ_le_of_lt this
    · -- the compacted region grows by the value at position k
      have htake : (swapL st.1 k st.2.2).take st.2.1 = st.1.take st.2.1 :=
        take_swapL_of_le st.1 hjk (le_of_eq huj.symm)
      have hjlt : st.2.1 < (swapL st.1 k st.2.2).length := by
        rw [length_swapL, hlen]; exact Nat.lt_of_le_of_lt hjk hk
      have hval : val (swapL st.1 k st.2.2) st.2.1 = val l k := by
        have h1 : val (swapL st.1 k st.2.2) st.2.2 = val st.1 k :=
          val_swapL_right st.1 hust
        rw [← huj, h1]
        exact hrest k (Nat.le_refl k) hk
      have hgetE : (swapL st.1 k st.2.2)[st.2.1]? = some (val l k) := by
        rw [List.getElem?_eq_getElem hjlt]
        rw [← hval, val, List.getD_eq_getElem _ _ hjlt]
      have hgetU : uniq[st.2.1]?.toList = [k] := by rw [hcond]; rfl
      rw [List.take_succ, List.take_succ, htake, hfront, hgetE, hgetU]
      simp [hukD]
    · -- slots at or beyond k+1 are untouched
      intro p hp hpl
      have hpk : p ≠ k := by omega
      have hpu : p ≠ st.2.2 := by rw [huj]; omega
      rw [val_swapL_of_ne st.1 hpk hpu]
      exact hrest p (by omega) hpl
  · rw [if_neg hcond]
    refine ⟨hlen, hperm, huj, hjle, Nat.le_succ_of_le hjk, ?_, ?_, hfront, ?_⟩
    · exact fun idx h => Nat.lt_succ_of_lt (hdone idx h)
    · intro idx hge hlt
      rcases Nat.eq_or_lt_of_le hge with heq | hgt
      · -- the next unique position is not k, hence ≥ k+1
        subst heq
        have hne : uniq.getD st.2.1 0 ≠ k := by
          intro hc
          apply hcond
          rw [List.getElem?_eq_getElem hlt, ← List.getD_eq_getElem _ _ hlt, hc]
        have := htodo st.2.1 (Nat.le_refl _) hlt
        omega
      · have hjlt : st.2.1 < uniq.length := Nat.lt_trans hgt hlt
        have h1 := htodo st.2.1 (Nat.le_refl _) hjlt
        have h2 := sorted_getD_lt hU1 hjlt hlt hgt
        omega
    · exact fun p hp hpl => hrest p (by omega) hpl

theorem loopInv_range {α : Type} [Inhabited α] {l : List α} {uniq : List Nat}
    (hU1 : uniq.Pairwise (· < ·)) (hU2 : ∀ m ∈ uniq, m < l.length) :
    ∀ k, k ≤ l.length →
      LoopInv l uniq k ((List.range k).foldl (uniquifyStep uniq) (l, 0, 0)) := by
  intro k
  induction k with
  | zero =>
    intro _
    simp only [List.range_zero, List.foldl_nil]
    exact loopInv_init l uniq
  | succ m ih =>
    intro hm
    rw [List.range_succ, List.foldl_append]
    simp only [List.foldl_cons, List.foldl_nil]
    exact loopInv_step hU1 hU2 (Nat.lt_of_succ_le hm) (ih (Nat.le_of_succ_le hm))

/-- Outcome of the compaction loop: both cursors end at the number of
unique positions, the container is a permutation of the original, and the
compacted region holds exactly the values at the unique positions. -/
theorem uniquify_loop_spec {α : Type} [Inhabited α] {l : List α} {uniq : List Nat}
    (hU1 : uniq.Pairwise (· < ·)) (hU2 : ∀ m ∈ uniq, m < l.length) :
    ((List.range l.length).foldl (uniquifyStep uniq) (l, 0, 0)).2.1 = uniq.length ∧
    ((List.range l.length).foldl (uniquifyStep uniq) (l, 0, 0)).2.2 = uniq.length ∧
    ((List.range l.length).foldl (uniquifyStep uniq) (l, 0, 0)).1 ~ l ∧
    ((List.range l.length).foldl (uniquifyStep uniq) (l, 0, 0)).1.take uniq.length
      = uniq.map (val l) := by
  obtain ⟨hlen, hperm, huj, hjle, hjk, hdone, htodo, hfront, hrest⟩ :=
    loopInv_range hU1 hU2 l.length (Nat.le_refl _)
  have hj : ((List.range l.length).foldl (uniquifyStep uniq) (l, 0, 0)).2.1
      = uniq.length := by
    rcases Nat.lt_or_ge ((List.range l.length).foldl (uniquifyStep uniq) (l, 0, 0)).2.1
      uniq.length with h | h
    · exfalso
      have h1 := htodo _ (Nat.le_refl _) h
      have h2 : uniq.getD ((List.range l.length).foldl (uniquifyStep uniq) (l, 0, 0)).2.1 0
          ∈ uniq := by
        rw [List.getD_eq_getElem _ _ h]
        exact List.getElem_mem h
      have h3 := hU2 _ h2
      omega
    · exact Nat.le_antisymm hjle h
  refine ⟨hj, by rw [huj, hj], hperm, ?_⟩
  rw [← hj, hfront, hj, List.take_length]

/-! ### Representatives in the first-occurrence list -/

theorem firstOccs_exists_rep {α : Type} [Inhabited α] {compB eqB : α → α → Bool}
    {l : List α} (hswo : IsSWO compB) (hcons : ConsistentEq compB eqB) :
    ∀ i, i < l.length → ∃ p ∈ firstOccs eqB l, eqIdx eqB l p i = true := by
  intro i
  induction i using Nat.strong_induction_on with
  | _ i ih =>
    intro hi
    by_cases hfirst : ∀ j, j < i → eqIdx eqB l j i = false
    · exact ⟨i, mem_firstOccs.mpr ⟨hi, hfirst⟩, eqIdx_refl hswo hcons i⟩
    · push_neg at hfirst
      obtain ⟨j, hj, hne⟩ := hfirst
      have hji : eqIdx eqB l j i = true := by
        rcases Bool.eq_false_or_eq_true (eqIdx eqB l j i) with h | h
        · exact h
        · exact absurd h hne
      obtain ⟨p, hp, hpe⟩ := ih j hj (Nat.lt_trans hj hi)
      exact ⟨p, hp, eqIdx_trans hswo hcons p j i hpe hji⟩

theorem firstOccs_unique_rep {α : Type} [Inhabited α] {compB eqB : α → α → Bool}
    {l : List α} (hswo : IsSWO compB) (hcons : ConsistentEq compB eqB)
    {p q i : Nat} (hp : p ∈ firstOccs eqB l) (hq : q ∈ firstOccs eqB l)
    (hpe : eqIdx eqB l p i = true) (hqe : eqIdx eqB l q i = true) : p = q := by
  have hpq : eqIdx eqB l p q = true :=
    eqIdx_trans hswo hcons p i q hpe (eqIdx_symm hcons hqe)
  rcases Nat.lt_trichotomy p q with h | h | h
  · have h0 := (mem_firstOccs.mp hq).2 p h
    rw [hpq] at h0
    simp at h0
  · exact h
  · have h0 := (mem_firstOccs.mp hp).2 q h
    have hqp := eqIdx_symm hcons hpq
    rw [hqp] at h0
    simp at h0

/-! ### Claim theorems -/

/-- C1: for every range with mutually consistent comparator and equality
predicate, `stable_unique_iterators` returns a sequence of position
markers sorted strictly ascending by original position, each marker being
a valid position with no equal-valued element before it (hence the
smallest position of its equivalence class), and with exactly one marker
per equivalence class of the input's values. -/
theorem C1_stable_unique_markers {α : Type} [Inhabited α]
    {compB eqB : α → α → Bool} {l : List α}
    (hswo : IsSWO compB) (hcons : ConsistentEq compB eqB) :
    (stable_unique_iterators compB eqB l).Sorted (· < ·) ∧
    (∀ p ∈ stable_unique_iterators compB eqB l,
      p < l.length ∧ ∀ j, j < p → eqIdx eqB l j p = false) ∧
    (∀ i, i < l.length →
      ∃! p, p ∈ stable_unique_iterators compB eqB l ∧ eqIdx eqB l p i = true) := by
  rw [stable_unique_eq_firstOccs hswo hcons]
  refine ⟨firstOccs_sorted_lt eqB l, fun p hp => mem_firstOccs.mp hp, fun i hi => ?_⟩
  obtain ⟨p, hp, hpe⟩ := firstOccs_exists_rep hswo hcons i hi
  refine ⟨p, ⟨hp, hpe⟩, ?_⟩
  rintro q ⟨hq, hqe⟩
  exact firstOccs_unique_rep hswo hcons hq hp hqe hpe

/-- Witness for C1: the spec's Scenario 1, input `[3,1,2,1,3]` with the
default comparator and equality — the surviving positions are 0, 1, 2
(whose values are 3, 1, 2 in original order). -/
theorem C1_stable_unique_markers_witness :
    (IsSWO (fun a b : Fin 6 => decide (a < b)) ∧
     ConsistentEq (fun a b : Fin 6 => decide (a < b)) (fun a b => decide (a = b))) ∧
    stable_unique_iterators (fun a b : Fin 6 => decide (a < b))
      (fun a b => decide (a = b)) [3, 1, 2, 1, 3] = [0, 1, 2] ∧
    ((stable_unique_iterators (fun a b : Fin 6 => decide (a < b))
        (fun a b => decide (a = b)) [3, 1, 2, 1, 3]).Sorted (· < ·) ∧
     (∀ p ∈ stable_unique_iterators (fun a b : Fin 6 => decide (a < b))
        (fun a b => decide (a = b)) [3, 1, 2, 1, 3],
        p < ([3, 1, 2, 1, 3] : List (Fin 6)).length ∧
        ∀ j, j < p → eqIdx (fun a b : Fin 6 => decide (a = b)) [3, 1, 2, 1, 3] j p = false) ∧
     (∀ i, i < ([3, 1, 2, 1, 3] : List (Fin 6)).length →
      ∃! p, p ∈ stable_unique_iterators (fun a b : Fin 6 => decide (a < b))
          (fun a b => decide (a = b)) [3, 1, 2, 1, 3] ∧
        eqIdx (fun a b : Fin 6 => decide (a = b)) [3, 1, 2, 1, 3] p i = true)) :=
  ⟨⟨by unfold IsSWO; decide, by unfold ConsistentEq; decide⟩, by decide,
    C1_stable_unique_markers (by unfold IsSWO; decide) (by unfold ConsistentEq; decide)⟩

/-- Two sorted nodup position lists with the same members are equal;
specialised to `firstOccs` on the left. -/
theorem firstOccs_eq_of_mem_iff {α : Type} [Inhabited α] {eqB : α → α → Bool}
    {l : List α} {target : List Nat} (hnd : target.Nodup)
    (hsort : target.Sorted (· ≤ ·))
    (h : ∀ a, a ∈ firstOccs eqB l ↔ a ∈ target) : firstOccs eqB l = target := by
  have hperm : firstOccs eqB l ~ target :=
    List.perm_of_nodup_nodup_toFinset_eq (firstOccs_nodup eqB l) hnd
      (by ext a; simpa [List.mem_toFinset] using h a)
  exact List.eq_of_perm_of_sorted hperm
    ((firstOccs_sorted_lt eqB l).imp Nat.le_of_lt) hsort

/-- On an input without equal pairs, every position is a first occurrence. -/
theorem firstOccs_eq_range {α : Type} [Inhabited α] {eqB : α → α → Bool} {l : List α}
    (hnodup : ∀ i j, i < j → j < l.length → eqIdx eqB l i j = false) :
    firstOccs eqB l = List.range l.length := by
  apply firstOccs_eq_of_mem_iff (List.nodup_range _) (List.sorted_le_range _)
  intro a
  rw [mem_firstOccs, List.mem_range]
  exact ⟨fun h => h.1, fun ha => ⟨ha, fun j hj => hnodup j a hj ha⟩⟩

/-- C7: edge cases of the stable position-sort primitive — an empty range
gives an empty result; a range of size 1 gives exactly the single marker
0; a nonempty range whose elements are all equivalent gives exactly the
single marker 0 (the earliest position); a range without equal pairs gives
the full original marker sequence `[0, …, n)` in order. -/
theorem C7_stable_unique_edge_cases {α : Type} [Inhabited α]
    {compB eqB : α → α → Bool} {l : List α}
    (hswo : IsSWO compB) (hcons : ConsistentEq compB eqB) :
    (l = [] → stable_unique_iterators compB eqB l = []) ∧
    (l.length = 1 → stable_unique_iterators compB eqB l = [0]) ∧
    (l ≠ [] → (∀ i j, i < l.length → j < l.length → eqIdx eqB l i j = true) →
      stable_unique_iterators compB eqB l = [0]) ∧
    ((∀ i j, i < j → j < l.length → eqIdx eqB l i j = false) →
      stable_unique_iterators compB eqB l = List.range l.length) := by
  rw [stable_unique_eq_firstOccs hswo hcons]
  refine ⟨?_, ?_, ?_, ?_⟩
  · rintro rfl
    simp [firstOccs]
  · intro h1
    apply firstOccs_eq_of_mem_iff (by simp) (List.sorted_singleton 0)
    intro a
    rw [mem_firstOccs, List.mem_singleton, h1]
    constructor
    · rintro ⟨ha, _⟩
      omega
    · rintro rfl
      exact ⟨Nat.one_pos, fun j hj => absurd hj (Nat.not_lt_zero j)⟩
  · intro hne hall
    have hn : 0 < l.length := List.length_pos.mpr hne
    apply firstOccs_eq_of_mem_iff (by simp) (List.sorted_singleton 0)
    intro a
    rw [mem_firstOccs, List.mem_singleton]
    constructor
    · rintro ⟨ha, hfirst⟩
      by_contra h0
      have hpos : 0 < a := Nat.pos_of_ne_zero h0
      have he := hall 0 a hn ha
      have hf := hfirst 0 hpos
      rw [he] at hf
      simp at hf
    · rintro rfl
      exact ⟨hn, fun j hj => absurd hj (Nat.not_lt_zero j)⟩
  · exact firstOccs_eq_range

/-- Witness for C7: Scenario 3 of the spec — input `[5,5,5,5]` (all
elements equivalent) yields the single marker at position 0. -/
theorem C7_stable_unique_edge_cases_witness :
    (IsSWO (fun a b : Fin 6 => decide (a < b)) ∧
     ConsistentEq (fun a b : Fin 6 => decide (a < b)) (fun a b => decide (a = b))) ∧
    stable_unique_iterators (fun a b : Fin 6 => decide (a < b))
      (fun a b => decide (a = b)) [5, 5, 5, 5] = [0] ∧
    ((([5, 5, 5, 5] : List (Fin 6)) = [] →
      stable_unique_iterators (fun a b : Fin 6 => decide (a < b))
        (fun a b => decide (a = b)) [5, 5, 5, 5] = []) ∧
     (([5, 5, 5, 5] : List (Fin 6)).length = 1 →
      stable_unique_iterators (fun a b : Fin 6 => decide (a < b))
        (fun a b => decide (a = b)) [5, 5, 5, 5] = [0]) ∧
     (([5, 5, 5, 5] : List (Fin 6)) ≠ [] →
      (∀ i j, i < ([5, 5, 5, 5] : List (Fin 6)).length →
        j < ([5, 5, 5, 5] : List (Fin 6)).length →
        eqIdx (fun a b : Fin 6 => decide (a = b)) [5, 5, 5, 5] i j = true) →
      stable_unique_iterators (fun a b : Fin 6 => decide (a < b))
        (fun a b => decide (a = b)) [5, 5, 5, 5] = [0]) ∧
     ((∀ i j, i < j → j < ([5, 5, 5, 5] : List (Fin 6)).length →
        eqIdx (fun a b : Fin 6 => decide (a = b)) [5, 5, 5, 5] i j = false) →
      stable_unique_iterators (fun a b : Fin 6 => decide (a < b))
        (fun a b => decide (a = b)) [5, 5, 5, 5]
        = List.range ([5, 5, 5, 5] : List (Fin 6)).length)) :=
  ⟨⟨by unfold IsSWO; decide, by unfold ConsistentEq; decide⟩, by decide,
    C7_stable_unique_edge_cases (by unfold IsSWO; decide) (by unfold ConsistentEq; decide)⟩

/-- C8: the result of `stable_unique_iterators` never has more markers
than the input has elements, and it has exactly as many if and only if no
two elements at distinct positions are deemed equal by the equality
predicate. -/
theorem C8_stable_unique_size_bound {α : Type} [Inhabited α]
    {compB eqB : α → α → Bool} {l : List α}
    (hswo : IsSWO compB) (hcons : ConsistentEq compB eqB) :
    (stable_unique_iterators compB eqB l).length ≤ l.length ∧
    ((stable_unique_iterators compB eqB l).length = l.length ↔
      ∀ i j, i < j → j < l.length → eqIdx eqB l i j = false) := by
  rw [stable_unique_eq_firstOccs hswo hcons]
  have hle : (firstOccs eqB l).length ≤ l.length := by
    have h := (firstOccs_sublist_range eqB l).length_le
    simpa using h
  refine ⟨hle, ?_, ?_⟩
  · intro hlen i j hij hj
    have heq : firstOccs eqB l = List.range l.length :=
      (firstOccs_sublist_range eqB l).eq_of_length (by simpa using hlen)
    have hj' : j ∈ firstOccs eqB l := by
      rw [heq]
      exact List.mem_range.mpr hj
    exact (mem_firstOccs.mp hj').2 i hij
  · intro hnodup
    rw [firstOccs_eq_range hnodup, List.length_range]

/-- Witness for C8 at input `[3,1,2,1,3]`: 3 markers out of 5 elements,
and the length-equality criterion correctly fails. -/
theorem C8_stable_unique_size_bound_witness :
    (IsSWO (fun a b : Fin 6 => decide (a < b)) ∧
     ConsistentEq (fun a b : Fin 6 => decide (a < b)) (fun a b => decide (a = b))) ∧
    ((stable_unique_iterators (fun a b : Fin 6 => decide (a < b))
        (fun a b => decide (a = b)) [3, 1, 2, 1, 3]).length
        ≤ ([3, 1, 2, 1, 3] : List (Fin 6)).length ∧
     ((stable_unique_iterators (fun a b : Fin 6 => decide (a < b))
        (fun a b => decide (a = b)) [3, 1, 2, 1, 3]).length
        = ([3, 1, 2, 1, 3] : List (Fin 6)).length ↔
      ∀ i j, i < j → j < ([3, 1, 2, 1, 3] : List (Fin 6)).length →
        eqIdx (fun a b : Fin 6 => decide (a = b)) [3, 1, 2, 1, 3] i j = false)) :=
  ⟨⟨by unfold IsSWO; decide, by unfold ConsistentEq; decide⟩,
    C8_stable_unique_size_bound (by unfold IsSWO; decide) (by unfold ConsistentEq; decide)⟩

/-! ### The compaction claims -/

/-- Shared content of the compaction claims: the cut position is the
number of first occurrences and the compacted region holds their values in
original order. -/
theorem stable_uniquify_take_eq {α : Type} [Inhabited α]
    {compB eqB : α → α → Bool} {l : List α}
    (hswo : IsSWO compB) (hcons : ConsistentEq compB eqB) :
    (stable_uniquify compB eqB l).2 = (firstOccs eqB l).length ∧
    (stable_uniquify compB eqB l).1.take (stable_uniquify compB eqB l).2
      = (firstOccs eqB l).map (val l) := by
  have hU1 : (firstOccs eqB l).Pairwise (· < ·) := firstOccs_sorted_lt eqB l
  have hU2 : ∀ m ∈ firstOccs eqB l, m < l.length :=
    fun m hm => (mem_firstOccs.mp hm).1
  obtain ⟨hj, hu, hperm, htake⟩ := uniquify_loop_spec hU1 hU2
  simp only [stable_uniquify, stable_unique_eq_firstOccs hswo hcons]
  refine ⟨hu, ?_⟩
  rw [hu]
  exact htake

/-- C2: the range form of `stable_uniquify` returns a cut position equal
to the number of equivalence classes (one first occurrence per class), and
the region before the cut holds exactly the first-occurrence value of each
class, in the original relative order (ascending first-occurrence
position). -/
theorem C2_stable_uniquify_range {α : Type} [Inhabited α]
    {compB eqB : α → α → Bool} {l : List α}
    (hswo : IsSWO compB) (hcons : ConsistentEq compB eqB) :
    (stable_uniquify compB eqB l).2 = (firstOccs eqB l).length ∧
    (stable_uniquify compB eqB l).1.take (stable_uniquify compB eqB l).2
      = (firstOccs eqB l).map (val l) ∧
    (∀ i, i < l.length → ∃! p, p ∈ firstOccs eqB l ∧ eqIdx eqB l p i = true) := by
  obtain ⟨h1, h2⟩ := stable_uniquify_take_eq hswo hcons
  refine ⟨h1, h2, fun i hi => ?_⟩
  obtain ⟨p, hp, hpe⟩ := firstOccs_exists_rep hswo hcons i hi
  refine ⟨p, ⟨hp, hpe⟩, ?_⟩
  rintro q ⟨hq, hqe⟩
  exact firstOccs_unique_rep hswo hcons hq hp hqe hpe

/-- Witness for C2 at input `[2,1,2,1,3,2]`: the loop compacts the three
first-occurrence values 2, 1, 3 to the front and returns cut position 3. -/
theorem C2_stable_uniquify_range_witness :
    (IsSWO (fun a b : Fin 6 => decide (a < b)) ∧
     ConsistentEq (fun a b : Fin 6 => decide (a < b)) (fun a b => decide (a = b))) ∧
    stable_uniquify (fun a b : Fin 6 => decide (a < b))
      (fun a b => decide (a = b)) [2, 1, 2, 1, 3, 2] = ([2, 1, 3, 1, 2, 2], 3) ∧
    ((stable_uniquify (fun a b : Fin 6 => decide (a < b))
        (fun a b => decide (a = b)) [2, 1, 2, 1, 3, 2]).2
        = (firstOccs (fun a b : Fin 6 => decide (a = b)) [2, 1, 2, 1, 3, 2]).length ∧
     (stable_uniquify (fun a b : Fin 6 => decide (a < b))
        (fun a b => decide (a = b)) [2, 1, 2, 1, 3, 2]).1.take
        (stable_uniquify (fun a b : Fin 6 => decide (a < b))
          (fun a b => decide (a = b)) [2, 1, 2, 1, 3, 2]).2
        = (firstOccs (fun a b : Fin 6 => decide (a = b)) [2, 1, 2, 1, 3, 2]).map
            (val [2, 1, 2, 1, 3, 2]) ∧
     (∀ i, i < ([2, 1, 2, 1, 3, 2] : List (Fin 6)).length →
      ∃! p, p ∈ firstOccs (fun a b : Fin 6 => decide (a = b)) [2, 1, 2, 1, 3, 2] ∧
        eqIdx (fun a b : Fin 6 => decide (a = b)) [2, 1, 2, 1, 3, 2] p i = true)) :=
  ⟨⟨by unfold IsSWO; decide, by unfold ConsistentEq; decide⟩, by decide,
    C2_stable_uniquify_range (by unfold IsSWO; decide) (by unfold ConsistentEq; decide)⟩

/-- The compaction loop permutes the container for any list of marker
positions: every swap it performs is between two in-range slots. -/
theorem uniquify_fold_perm {α : Type} [Inhabited α] (uniq : List Nat) (l : List α) :
    ∀ k, k ≤ l.length →
      ((List.range k).foldl (uniquifyStep uniq) (l, 0, 0)).1 ~ l ∧
      ((List.range k).foldl (uniquifyStep uniq) (l, 0, 0)).1.length = l.length ∧
      ((List.range k).foldl (uniquifyStep uniq) (l, 0, 0)).2.2 ≤ k := by
  intro k
  induction k with
  | zero =>
    intro _
    simp
  | succ m ih =>
    intro hm
    obtain ⟨hp, hl, hu⟩ := ih (Nat.le_of_succ_le hm)
    rw [List.range_succ, List.foldl_append]
    simp only [List.foldl_cons, List.foldl_nil]
    rw [uniquifyStep]
    by_cases hcond :
        uniq[((List.range m).foldl (uniquifyStep uniq) (l, 0, 0)).2.1]? = some m
    · rw [if_pos hcond]
      have hm' : m < ((List.range m).foldl (uniquifyStep uniq) (l, 0, 0)).1.length := by
        rw [hl]; exact Nat.lt_of_succ_le hm
      have hu' : ((List.range m).foldl (uniquifyStep uniq) (l, 0, 0)).2.2
          < ((List.range m).foldl (uniquifyStep uniq) (l, 0, 0)).1.length := by
        rw [hl]; exact Nat.lt_of_le_of_lt hu (Nat.lt_of_succ_le hm)
      refine ⟨(swapL_perm _ _ _ hm' hu').trans hp, ?_, Nat.succ_le_succ hu⟩
      rw [length_swapL]
      exact hl
    · rw [if_neg hcond]
      exact ⟨hp, hl, Nat.le_succ_of_le hu⟩

/-- C3: after the range form of `stable_uniquify`, the container is a
permutation of the original — as a list (`Perm`) and as a multiset of
element values. -/
theorem C3_stable_uniquify_preserves_values {α : Type} [Inhabited α]
    {compB eqB : α → α → Bool} {l : List α}
    (hswo : IsSWO compB) (hcons : ConsistentEq compB eqB) :
    (stable_uniquify compB eqB l).1 ~ l ∧
    ((stable_uniquify compB eqB l).1 : Multiset α) = (l : Multiset α) := by
  have h := (uniquify_fold_perm (stable_unique_iterators compB eqB l) l
    l.length (Nat.le_refl _)).1
  simp only [stable_uniquify]
  exact ⟨h, Multiset.coe_eq_coe.mpr h⟩

/-- Witness for C3 at input `[2,1,2,1,3,2]`. -/
theorem C3_stable_uniquify_preserves_values_witness :
    (IsSWO (fun a b : Fin 6 => decide (a < b)) ∧
     ConsistentEq (fun a b : Fin 6 => decide (a < b)) (fun a b => decide (a = b))) ∧
    ((stable_uniquify (fun a b : Fin 6 => decide (a < b))
        (fun a b => decide (a = b)) [2, 1, 2, 1, 3, 2]).1 ~ [2, 1, 2, 1, 3, 2] ∧
     ((stable_uniquify (fun a b : Fin 6 => decide (a < b))
        (fun a b => decide (a = b)) [2, 1, 2, 1, 3, 2]).1 : Multiset (Fin 6))
        = ([2, 1, 2, 1, 3, 2] : List (Fin 6))) :=
  ⟨⟨by unfold IsSWO; decide, by unfold ConsistentEq; decide⟩,
    C3_stable_uniquify_preserves_values (by unfold IsSWO; decide)
      (by unfold ConsistentEq; decide)⟩

/-! ### The vector overload (default comparator and equality) -/

/-- `std::less` on a linearly ordered element type is a strict weak
order. -/
theorem isSWO_lt {α : Type} [LinearOrder α] :
    IsSWO (fun a b : α => decide (a < b)) := by
  refine ⟨fun a => by simp, fun a b c hab hbc => ?_, fun a b c hab hbc => ?_⟩
  · simp only [decide_eq_true_eq] at hab hbc ⊢
    exact lt_trans hab hbc
  · simp only [decide_eq_false_iff_not, not_lt] at hab hbc ⊢
    exact le_trans hbc hab

/-- `std::equal_to` agrees with `std::less` on a linearly ordered element
type. -/
theorem consistentEq_linear {α : Type} [LinearOrder α] :
    ConsistentEq (fun a b : α => decide (a < b)) (fun a b => decide (a = b)) := by
  intro a b
  simp only [decide_eq_true_eq, decide_eq_false_iff_not, not_lt]
  constructor
  · rintro rfl
    exact ⟨le_refl a, le_refl a⟩
  · rintro ⟨h1, h2⟩
    exact le_antisymm h2 h1

theorem map_val_range {α : Type} [Inhabited α] (l : List α) :
    (List.range l.length).map (val l) = l := by
  apply List.ext_getElem
  · simp
  · intro i h1 h2
    simp only [List.getElem_map, List.getElem_range]
    rw [val, List.getD_eq_getElem _ _ h2]

theorem eqIdx_false_of_nodup {α : Type} [Inhabited α] [DecidableEq α] {v : List α}
    (h : v.Nodup) : ∀ i j, i < j → j < v.length →
      eqIdx (fun a b : α => decide (a = b)) v i j = false := by
  intro i j hij hj
  have hi : i < v.length := Nat.lt_trans hij hj
  simp only [eqIdx, val, List.getD_eq_getElem _ _ hi, List.getD_eq_getElem _ _ hj,
    decide_eq_false_iff_not]
  intro hc
  exact absurd ((h.getElem_inj_iff).mp hc) (Nat.ne_of_lt hij)

/-- The vector overload returns exactly the first-occurrence values, in
original order. -/
theorem stable_uniquify_vec_eq {α : Type} [Inhabited α] [LinearOrder α] (v : List α) :
    stable_uniquify_vec v
      = (firstOccs (fun a b : α => decide (a = b)) v).map (val v) := by
  obtain ⟨h1, h2⟩ := stable_uniquify_take_eq (l := v) isSWO_lt consistentEq_linear
  simp only [stable_uniquify_vec]
  exact h2

/-- A vector without duplicates is left unchanged by the vector overload. -/
theorem stable_uniquify_vec_of_nodup {α : Type} [Inhabited α] [LinearOrder α]
    {v : List α} (h : v.Nodup) : stable_uniquify_vec v = v := by
  rw [stable_uniquify_vec_eq, firstOccs_eq_range (eqIdx_false_of_nodup h),
    map_val_range]

/-- The output of the vector overload has no duplicates. -/
theorem stable_uniquify_vec_nodup {α : Type} [Inhabited α] [LinearOrder α]
    (v : List α) : (stable_uniquify_vec v).Nodup := by
  rw [stable_uniquify_vec_eq]
  apply List.Nodup.map_on ?_ (firstOccs_nodup _ v)
  intro p hp q hq hval
  have hep : eqIdx (fun a b : α => decide (a = b)) v p q = true := by
    simp [eqIdx, hval]
  exact firstOccs_unique_rep isSWO_lt consistentEq_linear hp hq hep
    (eqIdx_refl isSWO_lt consistentEq_linear q)

/-- C4: what the vector overload of `stable_uniquify` is meant to do (the
overload in the source is ill-formed — see `stable_uniquify_vec` — so
this theorem is about the spec-modelled intent): it leaves the vector
holding exactly the first-occurrence representative of each equivalence
class of the original contents, in original relative order, its size
equal to the number of classes; an already duplicate-free vector is left
identical. -/
theorem C4_stable_uniquify_vec {α : Type} [Inhabited α] [LinearOrder α] (v : List α) :
    stable_uniquify_vec v
      = (firstOccs (fun a b : α => decide (a = b)) v).map (val v) ∧
    (stable_uniquify_vec v).length
      = (firstOccs (fun a b : α => decide (a = b)) v).length ∧
    (v.Nodup → stable_uniquify_vec v = v) :=
  ⟨stable_uniquify_vec_eq v, by rw [stable_uniquify_vec_eq v, List.length_map],
    fun h => stable_uniquify_vec_of_nodup h⟩

/-- Witness for C4: Scenario 5 of the spec, the duplicate-free input
`[1,2,3,4]` comes back identical, and the dedup example `[3,1,2,1,3]`
reduces to `[3,1,2]`. -/
theorem C4_stable_uniquify_vec_witness :
    stable_uniquify_vec ([1, 2, 3, 4] : List (Fin 6)) = [1, 2, 3, 4] ∧
    stable_uniquify_vec ([3, 1, 2, 1, 3] : List (Fin 6)) = [3, 1, 2] ∧
    (stable_uniquify_vec ([1, 2, 3, 4] : List (Fin 6))
      = (firstOccs (fun a b : Fin 6 => decide (a = b)) [1, 2, 3, 4]).map
          (val [1, 2, 3, 4]) ∧
     (stable_uniquify_vec ([1, 2, 3, 4] : List (Fin 6))).length
      = (firstOccs (fun a b : Fin 6 => decide (a = b)) [1, 2, 3, 4]).length ∧
     (([1, 2, 3, 4] : List (Fin 6)).Nodup →
      stable_uniquify_vec ([1, 2, 3, 4] : List (Fin 6)) = [1, 2, 3, 4])) :=
  ⟨by decide, by decide, C4_stable_uniquify_vec [1, 2, 3, 4]⟩

/-- C5: stable deduplication is idempotent — applying the container-level
operation (the spec-modelled intent of the ill-formed vector overload,
see `stable_uniquify_vec`) to its own output returns that output
unchanged. -/
theorem C5_stable_uniquify_vec_idem {α : Type} [Inhabited α] [LinearOrder α]
    (v : List α) :
    stable_uniquify_vec (stable_uniquify_vec v) = stable_uniquify_vec v :=
  stable_uniquify_vec_of_nodup (stable_uniquify_vec_nodup v)

/-- Witness for C5 at the input `[3,1,2,1,3]`. -/
theorem C5_stable_uniquify_vec_idem_witness :
    stable_uniquify_vec (stable_uniquify_vec ([3, 1, 2, 1, 3] : List (Fin 6)))
      = stable_uniquify_vec ([3, 1, 2, 1, 3] : List (Fin 6)) ∧
    stable_uniquify_vec ([3, 1, 2, 1, 3] : List (Fin 6)) = [3, 1, 2] :=
  ⟨C5_stable_uniquify_vec_idem [3, 1, 2, 1, 3], by decide⟩

/-! ### The unstable variant -/

theorem headD_mem {β : Type} {xs : List β} (h : xs ≠ []) (d : β) : xs.headD d ∈ xs := by
  cases xs with
  | nil => exact absurd rfl h
  | cons x t => simp

theorem unstable_result_nodup {α : Type} [Inhabited α] (eqB : α → α → Bool)
    (l : List α) {w : List Nat} (hwnd : w.Nodup) :
    (uniqueItersAfterSort eqB l w).Nodup := by
  rw [uniqueItersAfterSort]
  exact ((List.perm_insertionSort _ _).nodup_iff).mpr
    ((uniqueAdj_sublist _ _).nodup hwnd)

theorem unstable_sorted_lt {α : Type} [Inhabited α] (eqB : α → α → Bool)
    (l : List α) {w : List Nat} (hwnd : w.Nodup) :
    (uniqueItersAfterSort eqB l w).Sorted (· < ·) := by
  have hnd := unstable_result_nodup eqB l hwnd
  have hle : (uniqueItersAfterSort eqB l w).Sorted (· ≤ ·) := by
    rw [uniqueItersAfterSort]
    exact List.sorted_insertionSort _ _
  exact hle.lt_of_le hnd

theorem unstable_mem_lt {α : Type} [Inhabited α] (eqB : α → α → Bool)
    (l : List α) {w : List Nat} (hwperm : w ~ List.range l.length) :
    ∀ p ∈ uniqueItersAfterSort eqB l w, p < l.length := by
  intro p hp
  rw [uniqueItersAfterSort, List.mem_insertionSort] at hp
  exact List.mem_range.mp (hwperm.subset ((uniqueAdj_sublist _ _).subset hp))

theorem unstable_exists_rep {α : Type} [Inhabited α] {compB eqB : α → α → Bool}
    {l : List α} {w : List Nat}
    (hswo : IsSWO compB) (hcons : ConsistentEq compB eqB)
    (hwperm : w ~ List.range l.length) :
    ∀ i, i < l.length →
      ∃ p ∈ uniqueItersAfterSort eqB l w, eqIdx eqB l p i = true := by
  intro i hi
  have hiw : i ∈ w := hwperm.mem_iff.mpr (List.mem_range.mpr hi)
  obtain ⟨p, hp, hpe⟩ := exists_mem_uniqueAdj (eqIdx_refl hswo hcons) hiw
  refine ⟨p, ?_, hpe⟩
  rw [uniqueItersAfterSort, List.mem_insertionSort]
  exact hp

theorem unstable_unique_rep {α : Type} [Inhabited α] {compB eqB : α → α → Bool}
    {l : List α} {w : List Nat}
    (hswo : IsSWO compB) (hcons : ConsistentEq compB eqB)
    (hwperm : w ~ List.range l.length)
    (hwsorted : w.Pairwise (fun p q => leIdx compB l p q = true))
    {p q i : Nat}
    (hp : p ∈ uniqueItersAfterSort eqB l w) (hq : q ∈ uniqueItersAfterSort eqB l w)
    (hpe : eqIdx eqB l p i = true) (hqe : eqIdx eqB l q i = true) : p = q := by
  rw [uniqueItersAfterSort, List.mem_insertionSort] at hp hq
  have hwnd : w.Nodup := hwperm.nodup_iff.mpr (List.nodup_range _)
  by_contra hne
  have hpq : eqIdx eqB l p q = true :=
    eqIdx_trans hswo hcons p i q hpe (eqIdx_symm hcons hqe)
  have hpw := (uniqueAdj_sublist _ _).subset hp
  have hqw := (uniqueAdj_sublist _ _).subset hq
  rcases pair_sublist_of_mem hpw hqw hne with hs | hs
  · exact not_mem_uniqueAdj (eqIdx_step hswo hcons) (eqIdx_trans hswo hcons)
      hwsorted hwnd hs hpq hq
  · exact not_mem_uniqueAdj (eqIdx_step hswo hcons) (eqIdx_trans hswo hcons)
      hwsorted hwnd hs (eqIdx_symm hcons hpq) hp

/-- C6: for every comp-sorted permutation `w` of the positions (the
possible outcomes of the unstable variant's value sort), the rest of
`unstable_unique_iterators` returns markers sorted strictly ascending by
original position, every marker a valid original position, with exactly
one marker per equivalence class. -/
theorem C6_unstable_unique_markers {α : Type} [Inhabited α]
    {compB eqB : α → α → Bool} {l : List α} {w : List Nat}
    (hswo : IsSWO compB) (hcons : ConsistentEq compB eqB)
    (hwperm : w ~ List.range l.length)
    (hwsorted : w.Pairwise (fun p q => leIdx compB l p q = true)) :
    (uniqueItersAfterSort eqB l w).Sorted (· < ·) ∧
    (∀ p ∈ uniqueItersAfterSort eqB l w, p < l.length) ∧
    (∀ i, i < l.length →
      ∃! p, p ∈ uniqueItersAfterSort eqB l w ∧ eqIdx eqB l p i = true) := by
  refine ⟨unstable_sorted_lt eqB l (hwperm.nodup_iff.mpr (List.nodup_range _)),
    unstable_mem_lt eqB l hwperm, fun i hi => ?_⟩
  obtain ⟨p, hp, hpe⟩ := unstable_exists_rep hswo hcons hwperm i hi
  refine ⟨p, ⟨hp, hpe⟩, ?_⟩
  rintro q ⟨hq, hqe⟩
  exact unstable_unique_rep hswo hcons hwperm hwsorted hq hp hqe hpe

/-- Witness for C6: input `[3,1,2,1,3]` and the sorted permutation
`w = [3,1,2,4,0]` of its positions (values 1,1,2,3,3), which selects the
later duplicate of each class; the result `[2,3,4]` is ascending, one
marker per class, all valid original positions. -/
theorem C6_unstable_unique_markers_witness :
    (IsSWO (fun a b : Fin 6 => decide (a < b)) ∧
     ConsistentEq (fun a b : Fin 6 => decide (a < b)) (fun a b => decide (a = b)) ∧
     [3, 1, 2, 4, 0] ~ List.range ([3, 1, 2, 1, 3] : List (Fin 6)).length ∧
     List.Pairwise (fun p q =>
       leIdx (fun a b : Fin 6 => decide (a < b)) [3, 1, 2, 1, 3] p q = true)
       [3, 1, 2, 4, 0]) ∧
    uniqueItersAfterSort (fun a b : Fin 6 => decide (a = b)) [3, 1, 2, 1, 3]
      [3, 1, 2, 4, 0] = [2, 3, 4] ∧
    ((uniqueItersAfterSort (fun a b : Fin 6 => decide (a = b)) [3, 1, 2, 1, 3]
        [3, 1, 2, 4, 0]).Sorted (· < ·) ∧
     (∀ p ∈ uniqueItersAfterSort (fun a b : Fin 6 => decide (a = b)) [3, 1, 2, 1, 3]
        [3, 1, 2, 4, 0], p < ([3, 1, 2, 1, 3] : List (Fin 6)).length) ∧
     (∀ i, i < ([3, 1, 2, 1, 3] : List (Fin 6)).length →
      ∃! p, p ∈ uniqueItersAfterSort (fun a b : Fin 6 => decide (a = b)) [3, 1, 2, 1, 3]
          [3, 1, 2, 4, 0] ∧
        eqIdx (fun a b : Fin 6 => decide (a = b)) [3, 1, 2, 1, 3] p i = true)) := by
  refine ⟨⟨?_, ?_, ?_, ?_⟩, ?_,
    @C6_unstable_unique_markers (Fin 6) _ (fun a b => decide (a < b))
      (fun a b => decide (a = b)) [3, 1, 2, 1, 3] [3, 1, 2, 4, 0] ?_ ?_ ?_ ?_⟩ <;>
    first
      | decide
      | (unfold IsSWO; decide)
      | (unfold ConsistentEq; decide)

/-- C10: for every comp-sorted permutation `w` of the positions, the
unstable result has the same length as the stable result (both select
exactly one representative per equivalence class), and the two results
reference exactly the same equivalence classes — they can differ only in
which member of a class is the representative. -/
theorem C10_stable_unstable_agreement {α : Type} [Inhabited α]
    {compB eqB : α → α → Bool} {l : List α} {w : List Nat}
    (hswo : IsSWO compB) (hcons : ConsistentEq compB eqB)
    (hwperm : w ~ List.range l.length)
    (hwsorted : w.Pairwise (fun p q => leIdx compB l p q = true)) :
    (uniqueItersAfterSort eqB l w).length
      = (stable_unique_iterators compB eqB l).length ∧
    (∀ i, i < l.length →
      ((∃ p ∈ uniqueItersAfterSort eqB l w, eqIdx eqB l p i = true) ↔
       (∃ p ∈ stable_unique_iterators compB eqB l, eqIdx eqB l p i = true))) := by
  constructor
  · rw [stable_unique_eq_firstOccs hswo hcons]
    set f : Nat → Nat :=
      fun p => ((firstOccs eqB l).filter (fun q => eqIdx eqB l q p)).headD 0 with hf
    have hfspec : ∀ p, p < l.length →
        f p ∈ firstOccs eqB l ∧ eqIdx eqB l (f p) p = true := by
      intro p hp
      obtain ⟨q, hq, hqe⟩ := firstOccs_exists_rep hswo hcons p hp
      have hne : (firstOccs eqB l).filter (fun q => eqIdx eqB l q p) ≠ [] := by
        intro hc
        have hq' : q ∈ (firstOccs eqB l).filter (fun q => eqIdx eqB l q p) :=
          List.mem_filter.mpr ⟨hq, hqe⟩
        rw [hc] at hq'
        simp at hq'
      have hmem := headD_mem hne 0
      have h' := List.mem_filter.mp hmem
      exact ⟨h'.1, h'.2⟩
    have hlt := unstable_mem_lt eqB l hwperm
    have hmapnd : ((uniqueItersAfterSort eqB l w).map f).Nodup := by
      apply List.Nodup.map_on ?_
        (unstable_result_nodup eqB l (hwperm.nodup_iff.mpr (List.nodup_range _)))
      intro p hp q hq hfe
      obtain ⟨hfp, hfpe⟩ := hfspec p (hlt p hp)
      obtain ⟨hfq, hfqe⟩ := hfspec q (hlt q hq)
      rw [hfe] at hfpe
      exact unstable_unique_rep hswo hcons hwperm hwsorted hp hq
        (eqIdx_symm hcons hfpe) (eqIdx_symm hcons hfqe)
    have hmem : ∀ a, a ∈ (uniqueItersAfterSort eqB l w).map f ↔ a ∈ firstOccs eqB l := by
      intro a
      constructor
      · intro ha
        obtain ⟨p, hp, rfl⟩ := List.mem_map.mp ha
        exact (hfspec p (hlt p hp)).1
      · intro ha
        have han : a < l.length := (mem_firstOccs.mp ha).1
        obtain ⟨p, hp, hpe⟩ := unstable_exists_rep hswo hcons hwperm a han
        refine List.mem_map.mpr ⟨p, hp, ?_⟩
        obtain ⟨hfp, hfpe⟩ := hfspec p (hlt p hp)
        exact firstOccs_unique_rep hswo hcons hfp ha hfpe (eqIdx_symm hcons hpe)
    have hperm2 : (uniqueItersAfterSort eqB l w).map f ~ firstOccs eqB l :=
      List.perm_of_nodup_nodup_toFinset_eq hmapnd (firstOccs_nodup eqB l)
        (by ext a; simpa [List.mem_toFinset] using hmem a)
    calc (uniqueItersAfterSort eqB l w).length
        = ((uniqueItersAfterSort eqB l w).map f).length := (List.length_map _ _).symm
      _ = (firstOccs eqB l).length := hperm2.length_eq
  · intro i hi
    constructor
    · intro _
      obtain ⟨p, hp, hpe⟩ := firstOccs_exists_rep hswo hcons i hi
      refine ⟨p, ?_, hpe⟩
      rw [stable_unique_eq_firstOccs hswo hcons]
      exact hp
    · intro _
      exact unstable_exists_rep hswo hcons hwperm i hi

/-- Witness for C10 at input `[3,1,2,1,3]` with the sorted permutation
`w = [3,1,2,4,0]`: the unstable result `[2,3,4]` and the stable result
`[0,1,2]` have the same length and reference the same classes. -/
theorem C10_stable_unstable_agreement_witness :
    (IsSWO (fun a b : Fin 6 => decide (a < b)) ∧
     ConsistentEq (fun a b : Fin 6 => decide (a < b)) (fun a b => decide (a = b)) ∧
     [3, 1, 2, 4, 0] ~ List.range ([3, 1, 2, 1, 3] : List (Fin 6)).length ∧
     List.Pairwise (fun p q =>
       leIdx (fun a b : Fin 6 => decide (a < b)) [3, 1, 2, 1, 3] p q = true)
       [3, 1, 2, 4, 0]) ∧
    ((uniqueItersAfterSort (fun a b : Fin 6 => decide (a = b)) [3, 1, 2, 1, 3]
        [3, 1, 2, 4, 0]).length
      = (stable_unique_iterators (fun a b : Fin 6 => decide (a < b))
          (fun a b => decide (a = b)) [3, 1, 2, 1, 3]).length ∧
     (∀ i, i < ([3, 1, 2, 1, 3] : List (Fin 6)).length →
      ((∃ p ∈ uniqueItersAfterSort (fun a b : Fin 6 => decide (a = b)) [3, 1, 2, 1, 3]
          [3, 1, 2, 4, 0],
          eqIdx (fun a b : Fin 6 => decide (a = b)) [3, 1, 2, 1, 3] p i = true) ↔
       (∃ p ∈ stable_unique_iterators (fun a b : Fin 6 => decide (a < b))
          (fun a b => decide (a = b)) [3, 1, 2, 1, 3],
          eqIdx (fun a b : Fin 6 => decide (a = b)) [3, 1, 2, 1, 3] p i = true)))) := by
  refine ⟨⟨?_, ?_, ?_, ?_⟩,
    @C10_stable_unstable_agreement (Fin 6) _ (fun a b => decide (a < b))
      (fun a b => decide (a = b)) [3, 1, 2, 1, 3] [3, 1, 2, 4, 0] ?_ ?_ ?_ ?_⟩ <;>
    first
      | decide
      | (unfold IsSWO; decide)
      | (unfold ConsistentEq; decide)

/-- C9: the position-sort components never mutate the underlying
container — threading the container state through each phase of
`stable_unique_iterators` (and of the shared scan-and-sort tail used by
the unstable variant) returns it unchanged, with the same position result
as the plain functions; only the compaction component reorders the
container, and it does so by a permutation. -/
theorem C9_sort_components_frame {α : Type} [Inhabited α]
    (compB eqB : α → α → Bool) (l : List α) :
    (stable_unique_iterators_run compB eqB l).2 = l ∧
    (stable_unique_iterators_run compB eqB l).1 = stable_unique_iterators compB eqB l ∧
    (∀ w : List Nat, (uniqueItersAfterSort_run eqB l w).2 = l ∧
      (uniqueItersAfterSort_run eqB l w).1 = uniqueItersAfterSort eqB l w) ∧
    (stable_uniquify compB eqB l).1 ~ l := by
  refine ⟨rfl, rfl, fun w => ⟨rfl, rfl⟩, ?_⟩
  simp only [stable_uniquify]
  exact (uniquify_fold_perm (stable_unique_iterators compB eqB l) l
    l.length (Nat.le_refl _)).1

end IteratorSorting
